import Mathlib

/-!
Verification of the veinmind-tools registry client core
(`veinmind-runner/pkg/registry`): the credential store built by
`NewRegistryClient` / `WithAuth`, the HTTP backend's auth injection and
catalog pagination (`GetRepo`, `GetRepoTags`, `GetRepos`), the daemon
backend's `Pull`, and the containerd backend's `Pull`.

Go byte strings are embedded as `List Nat` (byte values); registry domains,
repository references and cursors, which are only compared for equality or
order, are embedded as Lean `String`.
-/

set_option autoImplicit false

namespace Veinmind

/-- A stored credential, `docker.Auth` (`part_000` lines 32-35). -/
structure Auth where
  username : List Nat
  password : List Nat
  deriving DecidableEq, Repr

/-- The credential store `RegistryClient.auth`: a Go `map[string]Auth`,
embedded as an association list in which `insertAuth` keeps keys unique. -/
abbrev AuthMap := List (String × Auth)

/-- Go map lookup `client.auth[domain]`: first (hence, with unique keys,
only) binding of the key. -/
def lookupAuth : AuthMap → String → Option Auth
  | [], _ => none
  | (k0, a) :: rest, k => if k0 = k then some a else lookupAuth rest k

/-- Go map write `c.auth[key] = auth`: replace the binding if the key is
present, otherwise append it. -/
def insertAuth : AuthMap → String → Auth → AuthMap
  | [], k, a => [(k, a)]
  | (k0, a0) :: rest, k, a =>
    if k0 = k then (k, a) :: rest else (k0, a0) :: insertAuth rest k a

/-- The map never holds two bindings for one canonicalized domain. -/
def keysNodup (m : AuthMap) : Prop := (m.map Prod.fst).Nodup

/-- Number of bindings a domain has in the store. -/
def countKey (m : AuthMap) (k : String) : Nat :=
  m.countP (fun p => p.1 = k)

/-! ### Base64 (Go `encoding/base64`)

`NewRegistryClient` decodes each config-file auth block with
`base64.StdEncoding.DecodeString`; `command.EncodeAuthToBase64` encodes
with `base64.URLEncoding.EncodeToString`. Both alphabets are embedded. -/

/-- Standard-alphabet encoding of one 6-bit group to its ASCII byte. -/
def encChar (n : Nat) : Nat :=
  if n < 26 then 65 + n
  else if n < 52 then 97 + (n - 26)
  else if n < 62 then 48 + (n - 52)
  else if n = 62 then 43
  else 47

/-- URL-alphabet encoding of one 6-bit group (differs from the standard
alphabet only at 62 ↦ `-` and 63 ↦ `_`). -/
def encCharUrl (n : Nat) : Nat :=
  if n = 62 then 45
  else if n ≥ 63 then 95
  else encChar n

/-- Standard-alphabet value of one ASCII byte, `none` off the alphabet
(the pad byte 61 is off the alphabet). -/
def decCharVal (c : Nat) : Option Nat :=
  if 65 ≤ c ∧ c ≤ 90 then some (c - 65)
  else if 97 ≤ c ∧ c ≤ 122 then some (c - 97 + 26)
  else if 48 ≤ c ∧ c ≤ 57 then some (c - 48 + 52)
  else if c = 43 then some 62
  else if c = 47 then some 63
  else none

/-- `base64.StdEncoding.EncodeToString`: three input bytes become four
alphabet bytes; a final group of one or two bytes is padded with `=` (61). -/
def b64encode : List Nat → List Nat
  | [] => []
  | [a] => [encChar (a / 4), encChar (a % 4 * 16), 61, 61]
  | [a, b] => [encChar (a / 4), encChar (a % 4 * 16 + b / 16), encChar (b % 16 * 4), 61]
  | a :: b :: c :: rest =>
    encChar (a / 4) :: encChar (a % 4 * 16 + b / 16) ::
      encChar (b % 16 * 4 + c / 64) :: encChar (c % 64) ::
      b64encode rest

/-- `base64.URLEncoding.EncodeToString`. -/
def b64urlEncode : List Nat → List Nat
  | [] => []
  | [a] => [encCharUrl (a / 4), encCharUrl (a % 4 * 16), 61, 61]
  | [a, b] => [encCharUrl (a / 4), encCharUrl (a % 4 * 16 + b / 16), encCharUrl (b % 16 * 4), 61]
  | a :: b :: c :: rest =>
    encCharUrl (a / 4) :: encCharUrl (a % 4 * 16 + b / 16) ::
      encCharUrl (b % 16 * 4 + c / 64) :: encCharUrl (c % 64) ::
      b64urlEncode rest

/-- Final quantum of two alphabet bytes plus `==`: one output byte. -/
def decode2 (w x : Nat) : Option (List Nat) :=
  match decCharVal w, decCharVal x with
  | some dw, some dx => if dx % 16 = 0 then some [dw * 4 + dx / 16] else none
  | _, _ => none

/-- Final quantum of three alphabet bytes plus `=`: two output bytes. -/
def decode3 (w x y : Nat) : Option (List Nat) :=
  match decCharVal w, decCharVal x, decCharVal y with
  | some dw, some dx, some dy =>
    if dy % 4 = 0 then some [dw * 4 + dx / 16, dx % 16 * 16 + dy / 4] else none
  | _, _, _ => none

/-- `base64.StdEncoding.DecodeString`: quanta of four bytes, the last of
which may carry one or two pad bytes; anything else is rejected. -/
def b64decode : List Nat → Option (List Nat)
  | [] => some []
  | w :: x :: y :: z :: rest =>
    if rest.isEmpty ∧ y = 61 ∧ z = 61 then decode2 w x
    else if rest.isEmpty ∧ z = 61 then decode3 w x y
    else
      match decCharVal w, decCharVal x, decCharVal y, decCharVal z with
      | some dw, some dx, some dy, some dz =>
        (b64decode rest).map (fun t =>
          (dw * 4 + dx / 16) :: (dx % 16 * 16 + dy / 4) :: (dy % 4 * 64 + dz) :: t)
      | _, _, _, _ => none
  | _ => none

/-- Go `strings.Split(s, ":")` on byte strings (58 is `:`): the list of
maximal colon-free runs, always one part more than there are colons. -/
def splitOnColon : List Nat → List (List Nat)
  | [] => [[]]
  | c :: rest =>
    if c = 58 then [] :: splitOnColon rest
    else
      match splitOnColon rest with
      | [] => [[c]]
      | p :: ps => (c :: p) :: ps

/-! ### External reference/registry helpers

`name.NewRegistry`, `url.Parse` and `reference.ParseDockerRef` live in
dependency libraries whose sources are not part of this repository; they
are modelled from the spec's description of their role. -/

/-- Modelled from the spec: `name.NewRegistry` validates a well-formed
registry domain (host and optional port over alphanumerics, `.`, `-`, `_`
and `:`, at most 255 bytes) and renders it back unchanged via
`Registry.String()`; anything else is an error. -/
def newRegistryString (s : String) : Option String :=
  if s.length ≤ 255 ∧ s.toList.all (fun c =>
      c.isAlphanum || c = '.' || c = '-' || c = '_' || c = ':') then
    some s
  else none

/-- Characters after the first `://`, if any. -/
def afterSchemeSep : List Char → Option (List Char)
  | ':' :: '/' :: '/' :: rest => some rest
  | _ :: rest => afterSchemeSep rest
  | [] => none

/-- Modelled from the spec: Go `url.Parse` host extraction. Parsing fails
only on control bytes; on success the host is the authority component after
`://` and before the next `/`, and a key with no `://` (a bare host or
host-as-scheme form) has an empty host. -/
def urlParseHost (s : String) : Option String :=
  if s.toList.any (fun c => c.toNat < 32) then none
  else
    match afterSchemeSep s.toList with
    | none => some ""
    | some rest => some (String.mk (rest.takeWhile (fun c => c ≠ '/')))

/-- A parsed docker reference: the pieces of `reference.ParseDockerRef`'s
result that the client reads (`reference.Domain(named)` and
`named.String()`). -/
structure NamedRef where
  domain : String
  path : String
  suffix : String
  deriving DecidableEq, Repr

/-- The canonical string `named.String()`. -/
def NamedRef.render (r : NamedRef) : String :=
  r.domain ++ "/" ++ r.path ++ r.suffix

/-- Character allowed in a repository path by the reference grammar. -/
def validPathChar (c : Char) : Bool :=
  c.isLower || c.isDigit || c = '.' || c = '-' || c = '_' || c = '/'

/-- Character allowed in a tag. -/
def validTagChar (c : Char) : Bool :=
  c.isAlphanum || c = '.' || c = '-' || c = '_'

/-- Split a character list at every occurrence of `sep`; always returns
one part more than there are separators. -/
def splitOnChar (sep : Char) : List Char → List (List Char)
  | [] => [[]]
  | c :: rest =>
    if c = sep then [] :: splitOnChar sep rest
    else
      match splitOnChar sep rest with
      | [] => [[c]]
      | p :: ps => (c :: p) :: ps

/-- Modelled from the spec: `reference.ParseDockerRef` validates and
canonicalizes an image reference. A first slash-component containing `.` or
`:` (or equal to `localhost`) is the domain, otherwise the domain defaults
to `docker.io`; a single-component `docker.io` path gains the `library/`
prefix; a missing tag defaults to `latest`; a digest suffix after `@` is
kept as is. -/
def parseDockerRef (repo : String) : Option NamedRef :=
  let cs := repo.toList
  if cs = [] then none
  else
    let head := cs.takeWhile (fun c => c ≠ '/')
    let tail := cs.dropWhile (fun c => c ≠ '/')
    let (domain, rest) :=
      if tail ≠ [] ∧
          (head.any (fun c => c = '.' ∨ c = ':') ∨ head = "localhost".toList) then
        (String.mk head, tail.drop 1)
      else ("docker.io", cs)
    let split :=
      match splitOnChar '@' rest with
      | [base, digest] =>
        if digest = [] then none else some (base, String.mk ('@' :: digest))
      | [base] =>
        match splitOnChar ':' base with
        | [p] => some (p, ":latest")
        | [p, t] =>
          if t ≠ [] ∧ t.all validTagChar then some (p, String.mk (':' :: t))
          else none
        | _ => none
      | _ => none
    match split with
    | none => none
    | some (path, suffix) =>
      if path = [] ∨ ¬ path.all validPathChar then none
      else
        let path :=
          if domain = "docker.io" ∧ ¬ path.any (fun c => c = '/') then
            "library/" ++ String.mk path
          else String.mk path
        some ⟨domain, path, suffix⟩

/-! ### Credential store construction (`NewRegistryClient`, `WithAuth`) -/

/-- One entry of the config file's `auths` mapping: server key and the
base64 `auth` block (`configfile.ConfigFile.AuthConfigs`). -/
structure FileEntry where
  server : String
  auth : List Nat
  deriving DecidableEq, Repr

/-- Decode one auth block (`part_000` lines 95-106): base64-decode, split
on `:`, and accept exactly two parts as `{username, password}`. -/
def decodeAuthBlock (block : List Nat) : Option Auth :=
  match b64decode block with
  | none => none
  | some dec =>
    match splitOnColon dec with
    | [u, p] => some ⟨u, p⟩
    | _ => none

/-- Canonicalization of a config-file server key (`part_000` lines
80-86): `u.Host` when `url.Parse` succeeds, the raw key otherwise. -/
def canonicalServerKey (server : String) : String :=
  match urlParseHost server with
  | some h => h
  | none => server

/-- The write a config-file entry performs, if any (`part_000` lines
79-110): canonicalize the server key, validate it with `name.NewRegistry`,
and decode a non-empty auth block; any failure skips the entry. -/
def fileWrite (e : FileEntry) : Option (String × Auth) :=
  match newRegistryString (canonicalServerKey e.server) with
  | none => none
  | some r =>
    if e.auth = [] then none
    else
      match decodeAuthBlock e.auth with
      | some a => some (r, a)
      | none => none

/-- Fold step of the config-file loop: apply the entry's write to the map,
or leave the map unchanged when the entry is skipped. -/
def processFileEntry (m : AuthMap) (e : FileEntry) : AuthMap :=
  match fileWrite e with
  | none => m
  | some (k, a) => insertAuth m k a

/-- The write a `WithAuth(address, auth)` option performs, if any
(`part_000` lines 43-53): validate the address with `name.NewRegistry` and
bind `registry.String()` to the auth. -/
def overrideWrite (p : String × Auth) : Option (String × Auth) :=
  match newRegistryString p.1 with
  | none => none
  | some r => some (r, p.2)

/-- Fold step of the option loop (`part_000` lines 61-68): a failing
option is logged and skipped, leaving the client unchanged. -/
def processOverride (m : AuthMap) (p : String × Auth) : AuthMap :=
  match overrideWrite p with
  | none => m
  | some (k, a) => insertAuth m k a

/-- The credential store `NewRegistryClient` builds (`part_000` lines
55-118): the explicit `WithAuth` overrides are applied in order, then the
config file's entries are applied in order. -/
def buildAuthMap (ov : List (String × Auth)) (fe : List FileEntry) : AuthMap :=
  fe.foldl processFileEntry (ov.foldl processOverride [])

/-- The sequence of successful map writes construction performs, in
order: override writes first, then file writes. -/
def buildWrites (ov : List (String × Auth)) (fe : List FileEntry) :
    List (String × Auth) :=
  ov.filterMap overrideWrite ++ fe.filterMap fileWrite

/-! ### HTTP backend auth injection (`GetRepo`, `GetRepoTags`) -/

/-- The auth-attachment decision shared by `GetRepo` (lines 148-159) and
`GetRepoTags` (lines 175-186): look the parsed reference's domain up in the
store, defaulting to the zero `Auth`, and attach basic auth only when both
the username and the password are non-empty. -/
def requestBasicAuth (m : AuthMap) (domain : String) : Option Auth :=
  let auth := (lookupAuth m domain).getD ⟨[], []⟩
  if auth.username ≠ [] ∧ auth.password ≠ [] then some auth else none

/-- `GetRepo` up to the outgoing request (lines 141-159): parse the
reference, then decide the request's basic-auth option; `Except.error ()`
is the `InvalidReference` early return. -/
def getRepoAuth (m : AuthMap) (repo : String) : Except Unit (Option Auth) :=
  match parseDockerRef repo with
  | none => .error ()
  | some named => .ok (requestBasicAuth m named.domain)

/-- `GetRepoTags` up to the outgoing request (lines 168-186): identical
resolution. -/
def getRepoTagsAuth (m : AuthMap) (repo : String) : Except Unit (Option Auth) :=
  match parseDockerRef repo with
  | none => .error ()
  | some named => .ok (requestBasicAuth m named.domain)

/-! ### Daemon backend `Pull` (`part_000` lines 234-271) -/

/-- Lowercase hex digit of a nibble, as a byte. -/
def hexDigit (n : Nat) : Nat :=
  if n < 10 then 48 + n else 97 + (n - 10)

/-- Modelled from the spec: Go `json.Marshal` escaping of one byte inside
a JSON string (quote and backslash escaped, control bytes as `\u00XX`). -/
def jsonEscape (s : List Nat) : List Nat :=
  s.flatMap (fun b =>
    if b = 34 ∨ b = 92 then [92, b]
    else if b < 32 then [92, 117, 48, 48, hexDigit (b / 16), hexDigit (b % 16)]
    else [b])

/-- One `"name":"value"` JSON member, as bytes. -/
def jsonMember (tag : List Nat) (value : List Nat) : List Nat :=
  [34] ++ tag ++ [34, 58, 34] ++ jsonEscape value ++ [34]

/-- Modelled from the spec: `json.Marshal` of `dockertypes.AuthConfig`
with only `Username` and `Password` set — every field carries `omitempty`,
so the zero config marshals to `{}` (bytes 123, 125). -/
def jsonAuthConfig (u p : List Nat) : List Nat :=
  let fields :=
    (if u = [] then [] else [jsonMember [117, 115, 101, 114, 110, 97, 109, 101] u]) ++
      (if p = [] then [] else [jsonMember [112, 97, 115, 115, 119, 111, 114, 100] p])
  [123] ++ (List.intercalate [44] fields) ++ [125]

/-- `command.EncodeAuthToBase64`: the URL-alphabet base64 of the JSON
marshalling of the auth config. Its error is impossible (string fields
always marshal) and the caller discards it. -/
def encodeAuthToBase64 (u p : List Nat) : List Nat :=
  b64urlEncode (jsonAuthConfig u p)

/-- The `RegistryAuth` value `Pull` sends (lines 245-263): the credential
for the reference's domain, defaulting to the zero `Auth`, encoded with
`EncodeAuthToBase64`; the empty token would select the unauthenticated
`ImagePull` call (`none`). -/
def pullRegistryAuth (m : AuthMap) (domain : String) : Option (List Nat) :=
  let auth := (lookupAuth m domain).getD ⟨[], []⟩
  let token := encodeAuthToBase64 auth.username auth.password
  if token = [] then none else some token

/-- The daemon's reply to `ImagePull`: the Go pair `(closer, err)`. A
stream is its `ioutil.ReadAll` outcome: `none` reads clean, `some code`
fails with that error. -/
structure PullReply where
  closer : Option (Option Nat)
  pullErr : Option Nat
  deriving DecidableEq, Repr

/-- Outcome of the daemon backend's `Pull`. -/
inductive PullOutcome where
  /-- Normal return of an image identifier. -/
  | ok (id : String)
  /-- Early return of an invalid-reference error. -/
  | invalidRef
  /-- Return of a stream-read error. -/
  | readErr (code : Nat)
  /-- `ioutil.ReadAll` invoked on the nil stream of a failed pull: a nil
  dereference, not an error return. -/
  | panicNilStream
  deriving DecidableEq, Repr

/-- The daemon backend's `Pull` (lines 234-271), with the daemon embedded
as a function from the reference and the attached `RegistryAuth` token to
its reply: parse the reference, build the token, issue the pull — the
pull's error landing in `err` — then overwrite `err` with the result of
`ioutil.ReadAll(closer)` and return `named.String()` on a clean read. -/
def pullDaemon (m : AuthMap)
    (imagePull : String → Option (List Nat) → PullReply)
    (repo : String) : PullOutcome :=
  match parseDockerRef repo with
  | none => .invalidRef
  | some named =>
    let token := pullRegistryAuth m named.domain
    let reply := imagePull repo token
    match reply.closer with
    | none => .panicNilStream
    | some readResult =>
      match readResult with
      | some code => .readErr code
      | none => .ok named.render

/-! ### Runtime backend `Pull` (`containerd/client.go` lines 34-46) -/

/-- The fixed containerd namespace `ns`. -/
def containerdNs : String := "veinmind-runner"

/-- The containerd backend's `Pull`, with the runtime embedded as a
function from the pulled reference to the content digest of the image's
target (or an error): canonicalize the reference when it parses (keep the
raw string otherwise), pull and unpack, and join the namespace and digest
with `/`. -/
def pullContainerd (pull : String → Except Nat String) (repo : String) :
    Except Nat String :=
  let repo2 :=
    match parseDockerRef repo with
    | some named => named.render
    | none => repo
  match pull repo2 with
  | .error e => .error e
  | .ok digest => .ok (containerdNs ++ "/" ++ digest)

/-! ### Catalog pagination (`GetRepos`, `part_000` lines 195-232) -/

/-- Modelled from the spec: `remote.CatalogPage` against a well-behaved
registry serving the fixed repository list `repos` in its reported
(strictly increasing) order — one page is up to `n` entries strictly after
the cursor `last`. -/
def catalogPage (repos : List String) (last : String) (n : Nat) : List String :=
  (repos.filter (fun r => last < r)).take n

/-- Result of the `GetRepos` loop. -/
inductive LoopResult (ε : Type) where
  /-- Normal termination on an empty page: `return repos, nil`. -/
  | ok (repos : List String)
  /-- A page request failed: `break`, then `return repos, err`. -/
  | fail (repos : List String) (e : ε)
  /-- Fuel ran out: the Go loop would still be running. -/
  | outOfFuel
  deriving DecidableEq, Repr

/-- The `GetRepos` pagination loop (lines 214-231), fuel-indexed: request
the page after `last` (initially the empty cursor), stop with the
accumulator on an error or an empty page, otherwise append the page and
continue from its last entry, `reposTemp[len(reposTemp)-1]`. -/
def getReposLoop {ε : Type} (page : String → Except ε (List String)) :
    Nat → String → List String → LoopResult ε
  | 0, _, _ => .outOfFuel
  | fuel + 1, last, acc =>
    match page last with
    | .error e => .fail acc e
    | .ok reposTemp =>
      if reposTemp.isEmpty then .ok acc
      else getReposLoop page fuel (reposTemp.getLastD "") (acc ++ reposTemp)

/-- `GetRepos` entry into the loop: empty cursor, empty accumulator. -/
def getRepos {ε : Type} (page : String → Except ε (List String)) (fuel : Nat) :
    LoopResult ε :=
  getReposLoop page fuel "" []

/-- The loop fetches exactly these non-empty pages, in order, from the
given cursor: each page is the server's reply at the current cursor and
moves the cursor to its last entry. -/
def fetchChain {ε : Type} (page : String → Except ε (List String)) :
    String → List (List String) → Prop
  | _, [] => True
  | c, p :: rest =>
    page c = .ok p ∧ p ≠ [] ∧ fetchChain page (p.getLastD "") rest

/-- The cursor after fetching the given pages. -/
def cursorAfter (c : String) : List (List String) → String
  | [] => c
  | p :: rest => cursorAfter (p.getLastD "") rest

/-- Apply a list of map writes in order. -/
def applyWrites (m : AuthMap) (ws : List (String × Auth)) : AuthMap :=
  ws.foldl (fun m p => insertAuth m p.1 p.2) m

/-! ### Map lemmas -/

theorem lookupAuth_insertAuth_self (m : AuthMap) (k : String) (a : Auth) :
    lookupAuth (insertAuth m k a) k = some a := by
  induction m with
  | nil => simp [insertAuth, lookupAuth]
  | cons hd tl ih =>
    obtain ⟨k0, a0⟩ := hd
    by_cases h : k0 = k <;> simp [insertAuth, lookupAuth, h, ih]

theorem lookupAuth_insertAuth_ne (m : AuthMap) (k : String) (a : Auth)
    (k' : String) (h : k ≠ k') :
    lookupAuth (insertAuth m k a) k' = lookupAuth m k' := by
  induction m with
  | nil => simp [insertAuth, lookupAuth, h]
  | cons hd tl ih =>
    obtain ⟨k0, a0⟩ := hd
    by_cases h0 : k0 = k
    · subst h0
      simp [insertAuth, lookupAuth, h, ih]
    · simp [insertAuth, lookupAuth, h0, ih]

theorem mem_keys_insertAuth (m : AuthMap) (k : String) (a : Auth) (x : String) :
    x ∈ (insertAuth m k a).map Prod.fst ↔ x ∈ m.map Prod.fst ∨ x = k := by
  induction m with
  | nil => simp [insertAuth]
  | cons hd tl ih =>
    obtain ⟨k0, a0⟩ := hd
    by_cases h : k0 = k
    · subst h
      simp [insertAuth]
      tauto
    · simp [insertAuth, h, ih]
      tauto

theorem keysNodup_insertAuth (m : AuthMap) (k : String) (a : Auth)
    (h : keysNodup m) : keysNodup (insertAuth m k a) := by
  induction m with
  | nil => simp [insertAuth, keysNodup]
  | cons hd tl ih =>
    obtain ⟨k0, a0⟩ := hd
    unfold keysNodup at h
    simp only [List.map_cons, List.nodup_cons] at h
    by_cases h0 : k0 = k
    · subst h0
      have hins : insertAuth ((k0, a0) :: tl) k0 a = (k0, a) :: tl := by
        simp [insertAuth]
      rw [hins]
      unfold keysNodup
      simp only [List.map_cons, List.nodup_cons]
      exact h
    · have hins : insertAuth ((k0, a0) :: tl) k a =
          (k0, a0) :: insertAuth tl k a := by
        simp [insertAuth, h0]
      rw [hins]
      unfold keysNodup
      simp only [List.map_cons, List.nodup_cons]
      refine ⟨?_, ih h.2⟩
      rw [mem_keys_insertAuth]
      push_neg
      exact ⟨h.1, h0⟩

theorem countKey_eq_zero_of_not_mem (m : AuthMap) (d : String)
    (h : d ∉ m.map Prod.fst) : countKey m d = 0 := by
  induction m with
  | nil => simp [countKey]
  | cons hd tl ih =>
    obtain ⟨k0, a0⟩ := hd
    simp only [List.map_cons, List.mem_cons, not_or] at h
    have h1 : ¬ (k0 = d) := fun hc => h.1 hc.symm
    simp only [countKey, List.countP_cons] at *
    simp [h1, ih h.2]

theorem countKey_eq_one_of_lookup (m : AuthMap) (d : String)
    (h : keysNodup m) (hl : (lookupAuth m d).isSome = true) :
    countKey m d = 1 := by
  induction m with
  | nil => simp [lookupAuth] at hl
  | cons hd tl ih =>
    obtain ⟨k0, a0⟩ := hd
    unfold keysNodup at h
    simp only [List.map_cons, List.nodup_cons] at h
    by_cases h0 : k0 = d
    · subst h0
      have : countKey tl k0 = 0 := countKey_eq_zero_of_not_mem tl k0 h.1
      simp [countKey, List.countP_cons] at this ⊢
      exact this
    · simp only [lookupAuth, if_neg h0] at hl
      have := ih h.2 hl
      simp only [countKey, List.countP_cons] at this ⊢
      simp [h0, this]

theorem keysNodup_applyWrites (ws : List (String × Auth)) :
    ∀ m : AuthMap, keysNodup m → keysNodup (applyWrites m ws) := by
  induction ws with
  | nil => intro m h; exact h
  | cons w ws ih =>
    intro m h
    exact ih (insertAuth m w.1 w.2) (keysNodup_insertAuth m w.1 w.2 h)

theorem lookupAuth_applyWrites (ws : List (String × Auth)) :
    ∀ (m : AuthMap) (d : String),
      lookupAuth (applyWrites m ws) d =
        match (ws.filter (fun p => p.1 = d)).getLast? with
        | some p => some p.2
        | none => lookupAuth m d := by
  induction ws with
  | nil => intro m d; simp [applyWrites]
  | cons w ws ih =>
    intro m d
    have step : applyWrites m (w :: ws) = applyWrites (insertAuth m w.1 w.2) ws := rfl
    rw [step, ih]
    by_cases hw : w.1 = d
    · have hfc : (w :: ws).filter (fun p => p.1 = d) =
          w :: ws.filter (fun p => p.1 = d) := by
        simp [List.filter_cons, hw]
      rw [hfc]
      cases hws : ws.filter (fun p => p.1 = d) with
      | nil =>
        simp only [hws, List.getLast?_singleton, List.getLast?_nil]
        rw [← hw, lookupAuth_insertAuth_self]
      | cons q qs =>
        rw [List.getLast?_cons_cons]
        obtain ⟨r, hr⟩ : ∃ r, (q :: qs).getLast? = some r :=
          ⟨(q :: qs).getLast (by simp), List.getLast?_eq_getLast _ _⟩
        rw [hr]
    · have hfc : (w :: ws).filter (fun p => p.1 = d) =
          ws.filter (fun p => p.1 = d) := by
        simp [List.filter_cons, hw]
      rw [hfc]
      cases hws : ws.filter (fun p => p.1 = d) with
      | nil =>
        simp only [hws, List.getLast?_nil]
        exact lookupAuth_insertAuth_ne m w.1 w.2 d hw
      | cons q qs =>
        obtain ⟨r, hr⟩ : ∃ r, (q :: qs).getLast? = some r :=
          ⟨(q :: qs).getLast (by simp), List.getLast?_eq_getLast _ _⟩
        rw [hr]

theorem buildAuthMap_eq_applyWrites (ov : List (String × Auth))
    (fe : List FileEntry) :
    buildAuthMap ov fe = applyWrites [] (buildWrites ov fe) := by
  have hov : ∀ (l : List (String × Auth)) (m : AuthMap),
      l.foldl processOverride m = applyWrites m (l.filterMap overrideWrite) := by
    intro l
    induction l with
    | nil => intro m; rfl
    | cons p l ih =>
      intro m
      simp only [List.foldl_cons, List.filterMap_cons]
      cases h : overrideWrite p with
      | none => simp [processOverride, h, ih]
      | some w =>
        simp only [processOverride, h, ih]
        rfl
  have hfe : ∀ (l : List FileEntry) (m : AuthMap),
      l.foldl processFileEntry m = applyWrites m (l.filterMap fileWrite) := by
    intro l
    induction l with
    | nil => intro m; rfl
    | cons e l ih =>
      intro m
      simp only [List.foldl_cons, List.filterMap_cons]
      cases h : fileWrite e with
      | none => simp [processFileEntry, h, ih]
      | some w =>
        simp only [processFileEntry, h, ih]
        rfl
  unfold buildAuthMap buildWrites
  rw [hov, hfe]
  unfold applyWrites
  rw [List.foldl_append]

/-- C2: after Credential Store construction, the domain-to-credential map
contains at most one entry per canonicalized domain; for every well-formed
registry domain that receives both an explicit override credential and a
file-sourced credential, exactly one credential is retained, and the last
writer during construction wins. -/
theorem credential_store_single_entry_last_writer (ov : List (String × Auth))
    (fe : List FileEntry) (d : String) (a1 a2 : Auth)
    (_hov : (d, a1) ∈ ov.filterMap overrideWrite)
    (hfe : (d, a2) ∈ fe.filterMap fileWrite) :
    keysNodup (buildAuthMap ov fe) ∧
      countKey (buildAuthMap ov fe) d = 1 ∧
      lookupAuth (buildAuthMap ov fe) d =
        ((buildWrites ov fe).filter (fun p => p.1 = d)).getLast?.map Prod.snd := by
  have hnodup : keysNodup (buildAuthMap ov fe) := by
    rw [buildAuthMap_eq_applyWrites]
    exact keysNodup_applyWrites _ [] (by simp [keysNodup])
  have hmem : (d, a2) ∈ (buildWrites ov fe).filter (fun p => p.1 = d) := by
    rw [List.mem_filter]
    refine ⟨?_, by simp⟩
    unfold buildWrites
    exact List.mem_append_right _ hfe
  have hne : (buildWrites ov fe).filter (fun p => p.1 = d) ≠ [] :=
    List.ne_nil_of_mem hmem
  have hlook : lookupAuth (buildAuthMap ov fe) d =
      ((buildWrites ov fe).filter (fun p => p.1 = d)).getLast?.map Prod.snd := by
    rw [buildAuthMap_eq_applyWrites, lookupAuth_applyWrites]
    cases hl : ((buildWrites ov fe).filter (fun p => p.1 = d)).getLast? with
    | none =>
      exact absurd (List.getLast?_eq_none_iff.mp hl) hne
    | some q => simp
  refine ⟨hnodup, ?_, hlook⟩
  apply countKey_eq_one_of_lookup _ _ hnodup
  rw [hlook]
  cases hl : ((buildWrites ov fe).filter (fun p => p.1 = d)).getLast? with
  | none => exact absurd (List.getLast?_eq_none_iff.mp hl) hne
  | some q => simp

/-- C2 witness: the domain `r.io` gets the override credential `{a, b}` and
then, from the file entry for server `https://r.io`, the credential
`{u, p}` (auth block `dTpw`, the base64 of `u:p`); the file write is the
last writer and is the one retained. -/
theorem credential_store_witness :
    keysNodup (buildAuthMap [("r.io", ⟨[97], [98]⟩)]
        [⟨"https://r.io", [100, 84, 112, 119]⟩]) ∧
      countKey (buildAuthMap [("r.io", ⟨[97], [98]⟩)]
        [⟨"https://r.io", [100, 84, 112, 119]⟩]) "r.io" = 1 ∧
      lookupAuth (buildAuthMap [("r.io", ⟨[97], [98]⟩)]
          [⟨"https://r.io", [100, 84, 112, 119]⟩]) "r.io" =
        ((buildWrites [("r.io", ⟨[97], [98]⟩)]
            [⟨"https://r.io", [100, 84, 112, 119]⟩]).filter
          (fun p => p.1 = "r.io")).getLast?.map Prod.snd :=
  credential_store_single_entry_last_writer _ _ "r.io" ⟨[97], [98]⟩ ⟨[117], [112]⟩
    (by decide) (by decide)

/-- C10: a config-file entry whose auth block is the empty string is never
inserted into the credential map (so it can never overwrite an explicit
override credential for its domain), and every file entry that is written
carries a non-empty auth block that base64-decodes and splits on `:` into
exactly the credential's username and password. -/
theorem empty_auth_block_never_inserted :
    (∀ (m : AuthMap) (e : FileEntry), e.auth = [] → processFileEntry m e = m) ∧
      ∀ (e : FileEntry) (d : String) (a : Auth), fileWrite e = some (d, a) →
        e.auth ≠ [] ∧ ∃ dec, b64decode e.auth = some dec ∧
          splitOnColon dec = [a.username, a.password] := by
  constructor
  · intro m e he
    have hw : fileWrite e = none := by
      unfold fileWrite
      rw [he]
      cases newRegistryString (canonicalServerKey e.server) <;> simp
    unfold processFileEntry
    rw [hw]
  · intro e d a hw
    unfold fileWrite at hw
    cases hreg : newRegistryString (canonicalServerKey e.server) with
    | none => rw [hreg] at hw; exact absurd hw (by simp)
    | some r =>
      rw [hreg] at hw
      simp only at hw
      by_cases he : e.auth = []
      · rw [if_pos he] at hw; exact absurd hw (by simp)
      · rw [if_neg he] at hw
        refine ⟨he, ?_⟩
        cases hd : decodeAuthBlock e.auth with
        | none => rw [hd] at hw; exact absurd hw (by simp)
        | some a0 =>
          rw [hd] at hw
          simp only [Option.some.injEq, Prod.mk.injEq] at hw
          unfold decodeAuthBlock at hd
          cases hb : b64decode e.auth with
          | none => rw [hb] at hd; exact absurd hd (by simp)
          | some dec =>
            rw [hb] at hd
            refine ⟨dec, rfl, ?_⟩
            simp only at hd
            cases hs : splitOnColon dec with
            | nil => rw [hs] at hd; exact absurd hd (by simp)
            | cons u rest =>
              rw [hs] at hd
              match rest, hd with
              | [p], hd =>
                have ha0 : Auth.mk u p = a0 := by simpa using hd
                rw [← hw.2, ← ha0]
              | [], hd => exact absurd hd (by simp)
              | p :: q :: t, hd => exact absurd hd (by simp)

/-- C10 witness: the empty-auth entry for `r.io` leaves the map unchanged,
and the written entry with auth block `dTpw` satisfies the decode shape. -/
theorem empty_auth_block_witness :
    processFileEntry [] ⟨"r.io", []⟩ = [] ∧
      ((⟨"https://r.io", [100, 84, 112, 119]⟩ : FileEntry).auth ≠ [] ∧
        ∃ dec, b64decode [100, 84, 112, 119] = some dec ∧
          splitOnColon dec = [[117], [112]]) :=
  ⟨empty_auth_block_never_inserted.1 [] ⟨"r.io", []⟩ rfl,
    empty_auth_block_never_inserted.2 ⟨"https://r.io", [100, 84, 112, 119]⟩ "r.io"
      ⟨[117], [112]⟩ (by decide)⟩

/-! ### Base64 round-trip (C3) -/

theorem decCharVal_encChar_fin : ∀ n : Fin 64, decCharVal (encChar n.val) = some n.val := by
  decide

theorem decCharVal_encChar (n : Nat) (h : n < 64) :
    decCharVal (encChar n) = some n :=
  decCharVal_encChar_fin ⟨n, h⟩

theorem encChar_ne_61 (n : Nat) : encChar n ≠ 61 := by
  unfold encChar
  split_ifs <;> omega

theorem b64decode_b64encode : ∀ bs : List Nat, (∀ b ∈ bs, b < 256) →
    b64decode (b64encode bs) = some bs
  | [], _ => by simp [b64encode, b64decode]
  | [a], h => by
    have ha : a < 256 := h a (by simp)
    simp only [b64encode, b64decode, List.isEmpty_nil, decode2, true_and, and_self,
      if_pos]
    rw [decCharVal_encChar (a / 4) (by omega), decCharVal_encChar (a % 4 * 16) (by omega)]
    simp only
    rw [if_pos (by omega)]
    congr 1
    have : a / 4 * 4 + a % 4 * 16 / 16 = a := by omega
    rw [this]
  | [a, b], h => by
    have ha : a < 256 := h a (by simp)
    have hb : b < 256 := h b (by simp)
    have h3 : encChar (b % 16 * 4) ≠ 61 := encChar_ne_61 _
    simp only [b64encode, b64decode, List.isEmpty_nil, true_and, decode3]
    rw [if_neg (by simp [h3]), if_pos (by simp)]
    rw [decCharVal_encChar (a / 4) (by omega),
      decCharVal_encChar (a % 4 * 16 + b / 16) (by omega),
      decCharVal_encChar (b % 16 * 4) (by omega)]
    simp only
    rw [if_pos (by omega)]
    congr 1
    have h1 : a / 4 * 4 + (a % 4 * 16 + b / 16) / 16 = a := by omega
    have h2 : (a % 4 * 16 + b / 16) % 16 * 16 + b % 16 * 4 / 4 = b := by omega
    rw [h1, h2]
  | a :: b :: c :: rest, h => by
    have ha : a < 256 := h a (by simp)
    have hb : b < 256 := h b (by simp)
    have hc : c < 256 := h c (by simp)
    have ih := b64decode_b64encode rest (fun x hx => h x (by simp [hx]))
    have h3 : encChar (b % 16 * 4 + c / 64) ≠ 61 := encChar_ne_61 _
    have h4 : encChar (c % 64) ≠ 61 := encChar_ne_61 _
    simp only [b64encode, b64decode]
    rw [if_neg (by simp [h3]), if_neg (by simp [h4])]
    rw [decCharVal_encChar (a / 4) (by omega),
      decCharVal_encChar (a % 4 * 16 + b / 16) (by omega),
      decCharVal_encChar (b % 16 * 4 + c / 64) (by omega),
      decCharVal_encChar (c % 64) (by omega)]
    rw [ih]
    simp only [Option.map]
    congr 1
    have h1 : a / 4 * 4 + (a % 4 * 16 + b / 16) / 16 = a := by omega
    have h2 : (a % 4 * 16 + b / 16) % 16 * 16 + (b % 16 * 4 + c / 64) / 4 = b := by
      omega
    have h5 : (b % 16 * 4 + c / 64) % 4 * 64 + c % 64 = c := by omega
    rw [h1, h2, h5]

theorem splitOnColon_ne_nil : ∀ l : List Nat, splitOnColon l ≠ []
  | [] => by simp [splitOnColon]
  | c :: rest => by
    by_cases h : c = 58
    · simp [splitOnColon, h]
    · simp only [splitOnColon, if_neg h]
      cases splitOnColon rest <;> simp

theorem splitOnColon_no_colon : ∀ l : List Nat, 58 ∉ l → splitOnColon l = [l]
  | [], _ => rfl
  | c :: rest, h => by
    have hc : ¬ (c = 58) := fun hx => h (by simp [hx])
    have := splitOnColon_no_colon rest (fun hx => h (by simp [hx]))
    simp [splitOnColon, hc, this]

theorem splitOnColon_append (u p : List Nat) (hu : 58 ∉ u) :
    splitOnColon (u ++ 58 :: p) = u :: splitOnColon p := by
  induction u with
  | nil => simp [splitOnColon]
  | cons c u ih =>
    have hc : ¬ (c = 58) := fun hx => hu (by simp [hx])
    have hu' : 58 ∉ u := fun hx => hu (by simp [hx])
    have hrec := ih hu'
    simp only [List.cons_append, splitOnColon, if_neg hc]
    cases hs : splitOnColon (u ++ 58 :: p) with
    | nil => exact absurd hs (splitOnColon_ne_nil _)
    | cons q qs =>
      rw [hrec] at hs
      injection hs with h1 h2
      rw [h1, h2]

theorem splitOnColon_length : ∀ l : List Nat,
    (splitOnColon l).length = l.count 58 + 1
  | [] => by simp [splitOnColon]
  | c :: rest => by
    have ih := splitOnColon_length rest
    by_cases h : c = 58
    · subst h
      simp [splitOnColon, ih, List.count_cons]
    · have hne := splitOnColon_ne_nil rest
      simp only [splitOnColon, if_neg h]
      cases hs : splitOnColon rest with
      | nil => exact absurd hs hne
      | cons q qs =>
        rw [hs] at ih
        simp only [List.length_cons] at ih ⊢
        rw [List.count_cons]
        simp [h, ih]

/-- C3: for every `user:pass` string with colon-free parts, base64-encoding
it and loading it through the credential store's config-file decoder yields
exactly the pair `{username := user, password := pass}`; a decoded string
with any other number of colons is rejected outright, and a rejected block
inserts nothing into the map. -/
theorem auth_block_roundtrip :
    (∀ u p : List Nat, 58 ∉ u → 58 ∉ p → (∀ b ∈ u, b < 256) → (∀ b ∈ p, b < 256) →
      decodeAuthBlock (b64encode (u ++ 58 :: p)) = some ⟨u, p⟩) ∧
    (∀ s dec : List Nat, b64decode s = some dec → dec.count 58 ≠ 1 →
      decodeAuthBlock s = none) ∧
    (∀ (m : AuthMap) (e : FileEntry), decodeAuthBlock e.auth = none →
      processFileEntry m e = m) := by
  refine ⟨?_, ?_, ?_⟩
  · intro u p hu hp hub hpb
    have hbytes : ∀ b ∈ u ++ 58 :: p, b < 256 := by
      intro b hb
      rcases List.mem_append.mp hb with h | h
      · exact hub b h
      · rcases List.mem_cons.mp h with h | h
        · omega
        · exact hpb b h
    unfold decodeAuthBlock
    rw [b64decode_b64encode _ hbytes]
    simp only
    rw [splitOnColon_append u p hu, splitOnColon_no_colon p hp]
  · intro s dec hdec hcount
    have hlen : (splitOnColon dec).length ≠ 2 := by
      rw [splitOnColon_length]
      omega
    unfold decodeAuthBlock
    rw [hdec]
    simp only
    cases hs : splitOnColon dec with
    | nil => rfl
    | cons q qs =>
      cases qs with
      | nil => rfl
      | cons q2 qs2 =>
        cases qs2 with
        | nil => rw [hs] at hlen; simp at hlen
        | cons q3 qs3 => rfl
  · intro m e hdec
    have hw : fileWrite e = none := by
      unfold fileWrite
      cases newRegistryString (canonicalServerKey e.server) with
      | none => rfl
      | some r =>
        simp only
        by_cases he : e.auth = []
        · rw [if_pos he]
        · rw [if_neg he, hdec]
    unfold processFileEntry
    rw [hw]

/-- C3 witness: `u:p` (bytes `117, 58, 112`) encodes to `dTpw` and decodes
back to the credential `{u, p}`; the block encoding `::` (two colons)
decodes but is rejected, and the rejected entry writes nothing. -/
theorem auth_block_roundtrip_witness :
    decodeAuthBlock (b64encode ([117] ++ 58 :: [112])) =
        some ⟨[117], [112]⟩ ∧
      decodeAuthBlock (b64encode [58, 58]) = none ∧
      processFileEntry [] ⟨"https://r.io", b64encode [58, 58]⟩ = [] :=
  ⟨auth_block_roundtrip.1 [117] [112] (by decide) (by decide) (by decide) (by decide),
    auth_block_roundtrip.2.1 (b64encode [58, 58]) [58, 58] (by decide) (by decide),
    auth_block_roundtrip.2.2 [] ⟨"https://r.io", b64encode [58, 58]⟩ (by decide)⟩

/-! ### Catalog pagination proofs (C1, C5) -/

theorem getReposLoop_step_ok {ε : Type} (page : String → Except ε (List String))
    (fuel : Nat) (c : String) (acc : List String) (p : List String)
    (hp : page c = .ok p) :
    getReposLoop page (fuel + 1) c acc =
      if p.isEmpty then .ok acc
      else getReposLoop page fuel (p.getLastD "") (acc ++ p) := by
  have hstep : getReposLoop page (fuel + 1) c acc =
      match page c with
      | .error e => .fail acc e
      | .ok reposTemp =>
        if reposTemp.isEmpty then .ok acc
        else getReposLoop page fuel (reposTemp.getLastD "") (acc ++ reposTemp) := rfl
  rw [hstep, hp]

theorem getReposLoop_step_err {ε : Type} (page : String → Except ε (List String))
    (fuel : Nat) (c : String) (acc : List String) (e : ε)
    (hp : page c = .error e) :
    getReposLoop page (fuel + 1) c acc = .fail acc e := by
  have hstep : getReposLoop page (fuel + 1) c acc =
      match page c with
      | .error e => .fail acc e
      | .ok reposTemp =>
        if reposTemp.isEmpty then .ok acc
        else getReposLoop page fuel (reposTemp.getLastD "") (acc ++ reposTemp) := rfl
  rw [hstep, hp]

theorem filter_getLastD_take (F : List String) (hs : List.Sorted (· < ·) F) :
    ∀ (n : Nat), 0 < n → F ≠ [] →
      F.filter (fun r => (F.take n).getLastD "" < r) = F.drop n := by
  induction F with
  | nil => intro n _ hF; exact absurd rfl hF
  | cons a F ih =>
    intro n hn _
    have hsF : List.Sorted (· < ·) F := (List.sorted_cons.mp hs).2
    have hall : ∀ b ∈ F, a < b := (List.sorted_cons.mp hs).1
    match n, hn with
    | n + 1, _ =>
      simp only [List.take_succ_cons, List.getLastD_cons]
      by_cases hF' : F.take n = []
      · rw [hF']
        have hfa : List.filter (fun r => decide (a < r)) (a :: F) = F := by
          rw [List.filter_cons, if_neg (by simp)]
          exact List.filter_eq_self.mpr (fun b hb => by simpa using hall b hb)
        simp only [List.getLastD_nil]
        rcases List.take_eq_nil_iff.mp hF' with h0 | h0
        · subst h0
          rw [hfa]
          simp
        · subst h0
          rw [hfa]
          simp
      · have hn' : 0 < n := by
          rcases Nat.eq_zero_or_pos n with h0 | h0
          · subst h0; simp at hF'
          · exact h0
        have hFne : F ≠ [] := by
          intro h0
          rw [h0] at hF'
          simp at hF'
        have hgl : (F.take n).getLastD a = (F.take n).getLast hF' := by
          rw [List.getLastD_eq_getLast?, List.getLast?_eq_getLast _ hF']
          rfl
        have hgl0 : (F.take n).getLastD "" = (F.take n).getLast hF' := by
          rw [List.getLastD_eq_getLast?, List.getLast?_eq_getLast _ hF']
          rfl
        rw [hgl]
        have hmem : (F.take n).getLast hF' ∈ F :=
          List.take_subset n F (List.getLast_mem hF')
        have halast : a < (F.take n).getLast hF' := hall _ hmem
        rw [List.filter_cons, if_neg (by simpa using lt_asymm halast)]
        rw [← hgl0, ih hsF n hn' hFne]
        rfl

theorem getReposLoop_catalog (repos : List String)
    (hsort : List.Sorted (· < ·) repos) :
    ∀ (fuel : Nat) (c : String) (acc : List String),
      (repos.filter (fun r => c < r)).length < fuel →
      getReposLoop
          (fun cur => (Except.ok (catalogPage repos cur 10000) : Except Unit (List String)))
          fuel c acc
        = .ok (acc ++ repos.filter (fun r => c < r)) := by
  intro fuel
  induction fuel with
  | zero => intro c acc h; omega
  | succ fuel ih =>
    intro c acc h
    rw [getReposLoop_step_ok _ fuel c acc (catalogPage repos c 10000) rfl]
    by_cases hF : repos.filter (fun r => c < r) = []
    · rw [if_pos (by simp only [catalogPage]; rw [hF]; rfl)]
      rw [hF]
      simp
    · have hpne : (repos.filter (fun r => c < r)).take 10000 ≠ [] := by
        intro hx
        rcases List.take_eq_nil_iff.mp hx with h0 | h0
        · omega
        · exact hF h0
      rw [if_neg (by simp only [catalogPage, List.isEmpty_iff]; exact hpne)]
      have hsF : List.Sorted (· < ·) (repos.filter (fun r => c < r)) :=
        List.Sorted.filter _ hsort
      have hdropF : (repos.filter (fun r => c < r)).filter
            (fun r => ((repos.filter (fun r => c < r)).take 10000).getLastD "" < r)
          = (repos.filter (fun r => c < r)).drop 10000 :=
        filter_getLastD_take _ hsF 10000 (by omega) hF
      have hlastmem :
          ((repos.filter (fun r => c < r)).take 10000).getLastD "" ∈
            repos.filter (fun r => c < r) := by
        have h1 : ((repos.filter (fun r => c < r)).take 10000).getLastD "" =
            ((repos.filter (fun r => c < r)).take 10000).getLast hpne := by
          rw [List.getLastD_eq_getLast?, List.getLast?_eq_getLast _ hpne]
          rfl
        rw [h1]
        exact List.take_subset _ _ (List.getLast_mem hpne)
      have hclast : c < ((repos.filter (fun r => c < r)).take 10000).getLastD "" := by
        have := (List.mem_filter.mp hlastmem).2
        simpa using this
      have hchain : repos.filter
            (fun r => ((repos.filter (fun r => c < r)).take 10000).getLastD "" < r)
          = (repos.filter (fun r => c < r)).filter
            (fun r => ((repos.filter (fun r => c < r)).take 10000).getLastD "" < r) := by
        rw [List.filter_filter]
        apply List.filter_congr
        intro r _
        cases hd : decide (((repos.filter (fun r => c < r)).take 10000).getLastD "" < r) with
        | false => simp [hd]
        | true =>
          have hr : ((repos.filter (fun r => c < r)).take 10000).getLastD "" < r :=
            of_decide_eq_true hd
          have : c < r := lt_trans hclast hr
          simp [hd, this]
      have hlen2 : (repos.filter
            (fun r => ((repos.filter (fun r => c < r)).take 10000).getLastD "" < r)).length
          < fuel := by
        rw [hchain, hdropF, List.length_drop]
        have hpos : 0 < (repos.filter (fun r => c < r)).length :=
          List.length_pos.mpr hF
        omega
      have hrec := ih (((repos.filter (fun r => c < r)).take 10000).getLastD "")
        (acc ++ (repos.filter (fun r => c < r)).take 10000) hlen2
      have hpage : catalogPage repos c 10000 = (repos.filter (fun r => c < r)).take 10000 := rfl
      rw [hpage, hrec, hchain, hdropF]
      rw [List.append_assoc, List.take_append_drop]

/-- C1: for every finite repository set served in the registry's reported
(strictly increasing, cursor-compatible) order, `GetRepos` terminates —
any fuel beyond the repository count finishes the loop normally — and
returns every repository exactly once in that order, paging through
`CatalogPage` with up-to-10000-entry pages, the empty cursor first, each
non-empty page's last entry as the next cursor, and stopping on the first
empty page. -/
theorem getRepos_returns_all_once (repos : List String) (fuel : Nat)
    (hsort : List.Sorted (· < ·) repos)
    (hpos : ∀ r ∈ repos, "" < r)
    (hfuel : repos.length < fuel) :
    getRepos
        (fun cur => (Except.ok (catalogPage repos cur 10000) : Except Unit (List String)))
        fuel
      = .ok repos := by
  unfold getRepos
  have hfull : repos.filter (fun r => "" < r) = repos :=
    List.filter_eq_self.mpr (fun r hr => by simpa using hpos r hr)
  have hlen : (repos.filter (fun r => "" < r)).length < fuel := by
    rw [hfull]
    exact hfuel
  have := getReposLoop_catalog repos hsort fuel "" [] hlen
  rw [this, hfull]
  rfl

/-- C1 witness: a three-repository registry is fully enumerated, in
order, with fuel 4. -/
theorem getRepos_returns_all_once_witness :
    getRepos
        (fun cur => (Except.ok (catalogPage ["a", "b", "c"] cur 10000) : Except Unit (List String)))
        4
      = .ok ["a", "b", "c"] :=
  getRepos_returns_all_once ["a", "b", "c"] 4
    (by simp [List.sorted_cons, String.lt_iff_toList_lt]; decide)
    (by simp [String.lt_iff_toList_lt]; decide)
    (by simp)

theorem getReposLoop_chain_error {ε : Type}
    (page : String → Except ε (List String)) :
    ∀ (ps : List (List String)) (c : String) (acc : List String) (fuel : Nat) (e : ε),
      fetchChain page c ps → page (cursorAfter c ps) = .error e →
      getReposLoop page (ps.length + fuel + 1) c acc = .fail (acc ++ ps.flatten) e := by
  intro ps
  induction ps with
  | nil =>
    intro c acc fuel e _ herr
    simp only [cursorAfter] at herr
    rw [List.length_nil, Nat.zero_add, getReposLoop_step_err page fuel c acc e herr]
    simp
  | cons p rest ih =>
    intro c acc fuel e hchain herr
    obtain ⟨hp, hpne, hrest⟩ := hchain
    have harith : (p :: rest).length + fuel + 1 = (rest.length + fuel + 1) + 1 := by
      simp only [List.length_cons]
      omega
    rw [harith, getReposLoop_step_ok page (rest.length + fuel + 1) c acc p hp,
      if_neg (by simp [hpne])]
    have := ih (p.getLastD "") (acc ++ p) fuel e hrest
      (by simpa [cursorAfter] using herr)
    rw [this]
    simp [List.append_assoc]

/-- C5: whenever the `GetRepos` loop hits a page-request error after one or
more pages have been accumulated, it returns the partial accumulator — the
concatenation of every page fetched so far — together with that error,
rather than discarding the prior pages. -/
theorem getRepos_error_returns_partial {ε : Type}
    (page : String → Except ε (List String)) (ps : List (List String))
    (e : ε) (fuel : Nat)
    (hps : ps ≠ [])
    (hchain : fetchChain page "" ps)
    (herr : page (cursorAfter "" ps) = .error e) :
    getRepos page (ps.length + fuel + 1) = .fail ps.flatten e := by
  have hne := hps
  unfold getRepos
  have := getReposLoop_chain_error page ps "" [] fuel e hchain herr
  simpa using this

/-- C5 witness: a registry that serves one page `[a, b]` and then fails
with error 5 makes `GetRepos` return `[a, b]` together with the error. -/
theorem getRepos_error_returns_partial_witness :
    getRepos (fun c => if c = "" then Except.ok ["a", "b"] else Except.error (5 : Nat)) 2
      = .fail ["a", "b"] 5 := by
  have h := getRepos_error_returns_partial
    (fun c => if c = "" then Except.ok ["a", "b"] else Except.error (5 : Nat))
    [["a", "b"]] 5 0 (by simp) ⟨by simp, by simp, trivial⟩ (by simp [cursorAfter])
  simpa using h

/-! ### Auth injection and Pull (C4, C6, C7, C8, C9) -/

theorem b64urlEncode_ne_nil (l : List Nat) (h : l ≠ []) : b64urlEncode l ≠ [] := by
  match l with
  | [] => exact absurd rfl h
  | [a] => simp [b64urlEncode]
  | [a, b] => simp [b64urlEncode]
  | a :: b :: c :: rest => simp [b64urlEncode]

/-- C4 evidence: the daemon backend's `Pull` always attaches a
`RegistryAuth` token. `EncodeAuthToBase64` never returns the empty string —
with no stored credential it returns the encoding of the empty auth config,
`e30=` (base64url of `\x7b\x7d`) — so the `token == ""` branch that would
issue an unauthenticated pull is unreachable. -/
theorem pull_auth_token_never_absent :
    (∀ (m : AuthMap) (d : String), (pullRegistryAuth m d).isSome = true) ∧
      pullRegistryAuth [] "index.docker.io" = some [101, 51, 48, 61] := by
  constructor
  · intro m d
    have hj : jsonAuthConfig ((lookupAuth m d).getD ⟨[], []⟩).username
        ((lookupAuth m d).getD ⟨[], []⟩).password ≠ [] := by
      unfold jsonAuthConfig
      simp
    have hne : encodeAuthToBase64 ((lookupAuth m d).getD ⟨[], []⟩).username
        ((lookupAuth m d).getD ⟨[], []⟩).password ≠ [] := by
      unfold encodeAuthToBase64
      exact b64urlEncode_ne_nil _ hj
    simp only [pullRegistryAuth]
    rw [if_neg hne]
    rfl
  · rfl

/-- C6 (amended): for `GetRepo` and `GetRepoTags` on a parseable
reference, basic authentication is attached exactly when the stored
credential for the reference's domain has a non-empty username and a
non-empty password; with no stored credential, or a stored credential with
an empty username or password, the request proceeds unauthenticated. -/
theorem basic_auth_injection (m : AuthMap) (repo : String) (named : NamedRef)
    (hparse : parseDockerRef repo = some named) :
    getRepoAuth m repo = .ok (requestBasicAuth m named.domain) ∧
      getRepoTagsAuth m repo = .ok (requestBasicAuth m named.domain) ∧
      (∀ a : Auth, lookupAuth m named.domain = some a → a.username ≠ [] →
        a.password ≠ [] → requestBasicAuth m named.domain = some a) ∧
      (lookupAuth m named.domain = none → requestBasicAuth m named.domain = none) ∧
      (∀ a : Auth, lookupAuth m named.domain = some a →
        (a.username = [] ∨ a.password = []) →
        requestBasicAuth m named.domain = none) := by
  refine ⟨?_, ?_, ?_, ?_, ?_⟩
  · unfold getRepoAuth
    rw [hparse]
  · unfold getRepoTagsAuth
    rw [hparse]
  · intro a ha hu hp
    simp only [requestBasicAuth]
    rw [ha]
    simp only [Option.getD_some]
    rw [if_pos ⟨hu, hp⟩]
  · intro ha
    simp only [requestBasicAuth]
    rw [ha]
    simp only [Option.getD_none]
    rw [if_neg (by simp)]
  · intro a ha hor
    simp only [requestBasicAuth]
    rw [ha]
    simp only [Option.getD_some]
    rw [if_neg (by tauto)]

/-- C6 witness: for the store holding `{u, p}` for docker.io and the
reference `ubuntu` (domain docker.io), both operations attach exactly that
basic-auth credential. -/
theorem basic_auth_injection_witness :
    getRepoAuth [("docker.io", ⟨[117], [112]⟩)] "ubuntu" =
        .ok (requestBasicAuth [("docker.io", ⟨[117], [112]⟩)] "docker.io") ∧
      getRepoTagsAuth [("docker.io", ⟨[117], [112]⟩)] "ubuntu" =
        .ok (requestBasicAuth [("docker.io", ⟨[117], [112]⟩)] "docker.io") ∧
      (∀ a : Auth, lookupAuth [("docker.io", ⟨[117], [112]⟩)] "docker.io" = some a →
        a.username ≠ [] → a.password ≠ [] →
        requestBasicAuth [("docker.io", ⟨[117], [112]⟩)] "docker.io" = some a) ∧
      (lookupAuth [("docker.io", ⟨[117], [112]⟩)] "docker.io" = none →
        requestBasicAuth [("docker.io", ⟨[117], [112]⟩)] "docker.io" = none) ∧
      (∀ a : Auth, lookupAuth [("docker.io", ⟨[117], [112]⟩)] "docker.io" = some a →
        (a.username = [] ∨ a.password = []) →
        requestBasicAuth [("docker.io", ⟨[117], [112]⟩)] "docker.io" = none) :=
  basic_auth_injection [("docker.io", ⟨[117], [112]⟩)] "ubuntu"
    ⟨"docker.io", "library/ubuntu", ":latest"⟩ (by decide)

/-- C6 counterexample to the claim as stated: the store holds a credential
for docker.io (entry present: empty username, password `p`), the reference
`ubuntu` parses to domain docker.io, yet no basic authentication is
attached to either request. -/
theorem basic_auth_counterexample :
    lookupAuth [("docker.io", ⟨[], [112]⟩)] "docker.io" =
        some ⟨[], [112]⟩ ∧
      getRepoAuth [("docker.io", ⟨[], [112]⟩)] "ubuntu" = .ok none ∧
      getRepoTagsAuth [("docker.io", ⟨[], [112]⟩)] "ubuntu" = .ok none :=
  ⟨rfl, rfl, rfl⟩

/-- C7: a successful daemon `Pull` — the reference parses and the daemon
hands back a stream whose full read succeeds — returns the canonicalized
reference string `named.String()` as the image identifier. -/
theorem pull_daemon_returns_canonical (m : AuthMap)
    (imagePull : String → Option (List Nat) → PullReply) (repo : String)
    (named : NamedRef)
    (hparse : parseDockerRef repo = some named)
    (hreply : (imagePull repo (pullRegistryAuth m named.domain)).closer = some none) :
    pullDaemon m imagePull repo = .ok named.render := by
  unfold pullDaemon
  rw [hparse]
  simp only
  rw [hreply]

/-- C7 witness: pulling `ubuntu` against a daemon that replies with a
clean stream returns `docker.io/library/ubuntu:latest`. -/
theorem pull_daemon_returns_canonical_witness :
    pullDaemon [] (fun _ _ => ⟨some none, none⟩) "ubuntu" =
      .ok "docker.io/library/ubuntu:latest" :=
  pull_daemon_returns_canonical [] (fun _ _ => ⟨some none, none⟩) "ubuntu"
    ⟨"docker.io", "library/ubuntu", ":latest"⟩ (by decide) rfl

/-- C8: a successful runtime-backend `Pull` returns the fixed namespace,
`/`, and the content digest of the pulled image's target. -/
theorem pull_containerd_namespace_digest (pull : String → Except Nat String)
    (repo : String) (digest : String)
    (hpull : pull (match parseDockerRef repo with
      | some named => named.render
      | none => repo) = .ok digest) :
    pullContainerd pull repo = .ok (containerdNs ++ "/" ++ digest) := by
  unfold pullContainerd
  simp only
  rw [hpull]

/-- C8 witness: pulling `ubuntu` when the runtime reports digest
`sha256:x` yields `veinmind-runner/sha256:x`. -/
theorem pull_containerd_namespace_digest_witness :
    pullContainerd (fun _ => .ok "sha256:x") "ubuntu" =
      .ok (containerdNs ++ "/" ++ "sha256:x") :=
  pull_containerd_namespace_digest (fun _ => .ok "sha256:x") "ubuntu" "sha256:x" rfl

/-- C9: when the daemon's `ImagePull` itself fails — returning a nil
stream and an error — that error is never returned by `Pull`: the error
variable is overwritten by the `ioutil.ReadAll` on the nil stream, so the
outcome is a nil-stream dereference, not an error return carrying the
pull error. -/
theorem pull_error_never_returned (m : AuthMap)
    (imagePull : String → Option (List Nat) → PullReply) (repo : String)
    (named : NamedRef) (e : Nat)
    (hparse : parseDockerRef repo = some named)
    (hfail : imagePull repo (pullRegistryAuth m named.domain) = ⟨none, some e⟩) :
    pullDaemon m imagePull repo = .panicNilStream := by
  unfold pullDaemon
  rw [hparse]
  simp only
  rw [hfail]

/-- C9 witness: a daemon whose `ImagePull` fails with error 7 and a nil
stream makes `Pull` end in the nil-stream read, never returning error 7. -/
theorem pull_error_never_returned_witness :
    pullDaemon [] (fun _ _ => ⟨none, some 7⟩) "ubuntu" = .panicNilStream :=
  pull_error_never_returned [] (fun _ _ => ⟨none, some 7⟩) "ubuntu"
    ⟨"docker.io", "library/ubuntu", ":latest"⟩ 7 (by decide) rfl

end Veinmind
